import Mathlib

/-
Verification of the DICOM-to-NIFTI reconstruction core of `dino_pipeline`
(`src/utils/dicom_to_nii.py`).

The geometric core is embedded shallowly:

* `convert_coords` (the Coordinate Normalizer) performs only field
  operations and comparisons, so it is embedded over `ℚ` and is fully
  executable.  A volume of shape `(S, R, C)` (slice, row, column, as in
  the numpy code) is a function `Fin S → Fin R → Fin C → ℚ`; the 4x4
  affine is `Fin 4 → Fin 4 → ℚ` (row index first, as `mat[r, c]`).
* `create_affine` (the Volume Reconstructor) needs square roots, so it
  is embedded over `ℝ`.  The per-slice metadata arrays are total
  functions from the slice index, with an explicit slice count `n`.

Machine floats are idealized as exact field arithmetic throughout; the
negative-zero fixup `mat[mat == 0.0] = 0.0` is transliterated literally
(and is the identity at value level, since neither `ℚ` nor `ℝ` has a
negative zero).
-/

/-! ### Coordinate Normalizer (`convert_coords`, dicom_to_nii.py lines 102-139) -/

/-- A 4x4 affine matrix with rational entries, `M r c` = `mat[r, c]`. -/
abbrev Mat4 : Type := Fin 4 → Fin 4 → ℚ

/-- A voxel volume of shape `(S, R, C)` = (slice, row, column), as numpy
stores it (`vol[s, r, c]`). -/
abbrev Vol (S R C : ℕ) : Type := Fin S → Fin R → Fin C → ℚ

/-- The diagonal of `convmat = diag(-1, -1, 1, 1)` (lines 110-112). -/
def Dv : Fin 4 → ℚ := ![-1, -1, 1, 1]

/-- One step of numpy's `argmax` scan: a later index replaces the current
best only when its value is strictly greater, so ties keep the first
occurrence, exactly as `np.argmax`. -/
def argmaxStep (f : Fin 4 → ℚ) (best i : Fin 4) : Fin 4 :=
  if f best < f i then i else best

/-- Embedding of `np.argmax` over a 4-vector: index of the first maximal entry. -/
def argmax4 (f : Fin 4 → ℚ) : Fin 4 :=
  argmaxStep f (argmaxStep f (argmaxStep f 0 1) 2) 3

/-- Embedding of `np.flip(vol, 2)`: reverse the column axis (axis 2). -/
def flipX {S R C : ℕ} (V : Vol S R C) : Vol S R C :=
  fun s r c => V s r c.rev

/-- Embedding of `np.flip(vol, 1)`: reverse the row axis (axis 1). -/
def flipY {S R C : ℕ} (V : Vol S R C) : Vol S R C :=
  fun s r c => V s r.rev c

/-- The matrix update of the x-flip branch (lines 130-131):
`mat[:,3] += mat[:,0]*(vol.shape[2]-1)` then `mat[:,0] = -mat[:,0]`. -/
def flipXmat (C : ℕ) (M : Mat4) : Mat4 := fun r c =>
  if c = 0 then -(M r 0)
  else if c = 3 then M r 3 + M r 0 * ((C : ℚ) - 1)
  else M r c

/-- The matrix update of the y-flip branch (lines 135-136):
`mat[:,3] += mat[:,1]*(vol.shape[1]-1)` then `mat[:,1] = -mat[:,1]`. -/
def flipYmat (R : ℕ) (M : Mat4) : Mat4 := fun r c =>
  if c = 1 then -(M r 1)
  else if c = 3 then M r 3 + M r 1 * ((R : ℚ) - 1)
  else M r c

/-- Embedding of `mat[mat == 0.0] = 0.0` (line 139): every entry equal to zero is
replaced by zero.  Over `ℚ` this is the identity (proved below); in the
float code it canonicalizes `-0.0` to `+0.0`. -/
def zeroFix (M : Mat4) : Mat4 := fun r c => if M r c = 0 then 0 else M r c

/-- Shallow embedding of `convert_coords(vol, mat)` (lines 102-139).
The Python function mutates `vol` and `mat` in place; the embedding
returns the final values of the pair. -/
def convert_coords {S R C : ℕ} (V : Vol S R C) (M : Mat4) : Vol S R C × Mat4 :=
  let M1 : Mat4 := fun r c => Dv r * M r c
  let xmaxi := argmax4 fun r => |M1 r 0|
  let ymaxi := argmax4 fun r => if r = xmaxi then 0 else |M1 r 1|
  let p2 := if M1 xmaxi 0 < 0 then (flipX V, flipXmat C M1) else (V, M1)
  let p3 := if p2.2 ymaxi 1 < 0 then (flipY p2.1, flipYmat R p2.2) else p2
  (p3.1, zeroFix p3.2)

/-- The physical point the affine assigns to voxel index `(i, j, k)` =
(column, row, slice): component `row` of `M ⬝ (i, j, k, 1)`. -/
def applyAffine (M : Mat4) (i j k : ℕ) (row : Fin 4) : ℚ :=
  M row 0 * i + M row 1 * j + M row 2 * k + M row 3

theorem zeroFix_id (M : Mat4) : zeroFix M = M := by
  funext r c
  unfold zeroFix
  by_cases h : M r c = 0
  · rw [if_pos h, h]
  · rw [if_neg h]

theorem val_rev_cast {C : ℕ} (c : Fin C) : ((c.rev : ℕ) : ℚ) = (C : ℚ) - 1 - (c : ℕ) := by
  rw [Fin.val_rev]
  have h : (c : ℕ) + 1 ≤ C := c.isLt
  push_cast [Nat.cast_sub h]
  ring

theorem flipXmat_col0 (C : ℕ) (M : Mat4) (r : Fin 4) : flipXmat C M r 0 = -(M r 0) := by
  simp only [flipXmat]
  rw [if_true]

theorem flipXmat_col1 (C : ℕ) (M : Mat4) (r : Fin 4) : flipXmat C M r 1 = M r 1 := by
  simp only [flipXmat]
  rw [if_neg (by decide), if_neg (by decide)]

theorem flipXmat_col2 (C : ℕ) (M : Mat4) (r : Fin 4) : flipXmat C M r 2 = M r 2 := by
  simp only [flipXmat]
  rw [if_neg (by decide), if_neg (by decide)]

theorem flipXmat_col3 (C : ℕ) (M : Mat4) (r : Fin 4) :
    flipXmat C M r 3 = M r 3 + M r 0 * ((C : ℚ) - 1) := by
  simp only [flipXmat]
  rw [if_neg (by decide), if_true]

theorem flipYmat_col0 (R : ℕ) (M : Mat4) (r : Fin 4) : flipYmat R M r 0 = M r 0 := by
  simp only [flipYmat]
  rw [if_neg (by decide), if_neg (by decide)]

theorem flipYmat_col1 (R : ℕ) (M : Mat4) (r : Fin 4) : flipYmat R M r 1 = -(M r 1) := by
  simp only [flipYmat]
  rw [if_true]

theorem flipYmat_col2 (R : ℕ) (M : Mat4) (r : Fin 4) : flipYmat R M r 2 = M r 2 := by
  simp only [flipYmat]
  rw [if_neg (by decide), if_neg (by decide)]

theorem flipYmat_col3 (R : ℕ) (M : Mat4) (r : Fin 4) :
    flipYmat R M r 3 = M r 3 + M r 1 * ((R : ℚ) - 1) := by
  simp only [flipYmat]
  rw [if_neg (by decide), if_true]

/-- C2: each flip branch of the Coordinate Normalizer preserves the
physical geometry.  For the x-branch (column 0): the value that sat at
column index `c` sits, after the flip, at index `c.rev = C-1-c`, and the
updated affine maps that new index to the same physical point; the flip
is an involution on the volume, so no voxel value is lost, duplicated or
altered.  Likewise for the y-branch (column 1, row axis). -/
theorem convert_coords_flip_branches_preserve_geometry
    {S R C : ℕ} (V : Vol S R C) (M : Mat4) (s : Fin S) (r : Fin R) (c : Fin C)
    (row : Fin 4) :
    (applyAffine (flipXmat C M) c.rev r s row = applyAffine M c r s row ∧
      flipX V s r c.rev = V s r c ∧ flipX (flipX V) = V) ∧
    (applyAffine (flipYmat R M) c r.rev s row = applyAffine M c r s row ∧
      flipY V s r.rev c = V s r c ∧ flipY (flipY V) = V) := by
  refine ⟨⟨?_, ?_, ?_⟩, ⟨?_, ?_, ?_⟩⟩
  · unfold applyAffine
    rw [flipXmat_col0, flipXmat_col1, flipXmat_col2, flipXmat_col3, val_rev_cast]
    ring
  · unfold flipX
    rw [Fin.rev_rev]
  · funext s' r' c'
    unfold flipX
    rw [Fin.rev_rev]
  · unfold applyAffine
    rw [flipYmat_col0, flipYmat_col1, flipYmat_col2, flipYmat_col3, val_rev_cast]
    ring
  · unfold flipY
    rw [Fin.rev_rev]
  · funext s' r' c'
    unfold flipY
    rw [Fin.rev_rev]

theorem Dv_abs (r : Fin 4) : |Dv r| = 1 := by
  fin_cases r <;> decide

theorem Dv_pm (r : Fin 4) : Dv r = 1 ∨ Dv r = -1 := by
  fin_cases r <;> decide

theorem argmaxStep_le_fst (f : Fin 4 → ℚ) (b i : Fin 4) : f b ≤ f (argmaxStep f b i) := by
  unfold argmaxStep
  by_cases h : f b < f i
  · rw [if_pos h]
    exact le_of_lt h
  · rw [if_neg h]

theorem argmaxStep_le_snd (f : Fin 4 → ℚ) (b i : Fin 4) : f i ≤ f (argmaxStep f b i) := by
  unfold argmaxStep
  by_cases h : f b < f i
  · rw [if_pos h]
  · rw [if_neg h]
    exact le_of_not_lt h

/-- Property of argmax4: `np.argmax` returns an index attaining the maximum. -/
theorem argmax4_le (f : Fin 4 → ℚ) (r : Fin 4) : f r ≤ f (argmax4 f) := by
  unfold argmax4
  fin_cases r
  · exact le_trans (argmaxStep_le_fst f 0 1)
      (le_trans (argmaxStep_le_fst f _ 2) (argmaxStep_le_fst f _ 3))
  · exact le_trans (argmaxStep_le_snd f 0 1)
      (le_trans (argmaxStep_le_fst f _ 2) (argmaxStep_le_fst f _ 3))
  · exact le_trans (argmaxStep_le_snd f _ 2) (argmaxStep_le_fst f _ 3)
  · exact argmaxStep_le_snd f _ 3

/-- Index `xmaxi` as computed at line 120: the row of the largest-magnitude
entry of column 0 (of the matrix after the `convmat` sign change; both
give the same index, since the sign change preserves magnitudes). -/
def xmaxiOf (M : Mat4) : Fin 4 := argmax4 fun r => |M r 0|

/-- Index `ymaxi` as computed at lines 121-122: the row of the largest-magnitude
entry of column 1, after zeroing the row already claimed by `xmaxi`. -/
def ymaxiOf (M : Mat4) : Fin 4 := argmax4 fun r => if r = xmaxiOf M then 0 else |M r 1|

/-- Closed form of the matrix produced by `convert_coords` on input `M`
for a volume of shape `(S, Rn, Cn)` (proved equal to the sequential
embedding in `convert_coords_eq`). -/
def ccMat (Rn Cn : ℕ) (M : Mat4) : Mat4 := fun r c =>
  if c = 0 then (if Dv (xmaxiOf M) * M (xmaxiOf M) 0 < 0 then -1 else 1) * (Dv r * M r 0)
  else if c = 1 then (if Dv (ymaxiOf M) * M (ymaxiOf M) 1 < 0 then -1 else 1) * (Dv r * M r 1)
  else if c = 2 then Dv r * M r 2
  else Dv r * M r 3
    + (if Dv (xmaxiOf M) * M (xmaxiOf M) 0 < 0 then Dv r * M r 0 * ((Cn : ℚ) - 1) else 0)
    + (if Dv (ymaxiOf M) * M (ymaxiOf M) 1 < 0 then Dv r * M r 1 * ((Rn : ℚ) - 1) else 0)

/-- Closed form of the volume produced by `convert_coords`. -/
def ccVol {S R C : ℕ} (M : Mat4) (V : Vol S R C) : Vol S R C :=
  (if Dv (ymaxiOf M) * M (ymaxiOf M) 1 < 0 then flipY else id)
    ((if Dv (xmaxiOf M) * M (xmaxiOf M) 0 < 0 then flipX else id) V)

theorem ccMat_c0 (Rn Cn : ℕ) (M : Mat4) (r : Fin 4) :
    ccMat Rn Cn M r 0 =
      (if Dv (xmaxiOf M) * M (xmaxiOf M) 0 < 0 then -1 else 1) * (Dv r * M r 0) := by
  simp only [ccMat]
  rw [if_true]

theorem ccMat_c1 (Rn Cn : ℕ) (M : Mat4) (r : Fin 4) :
    ccMat Rn Cn M r 1 =
      (if Dv (ymaxiOf M) * M (ymaxiOf M) 1 < 0 then -1 else 1) * (Dv r * M r 1) := by
  simp only [ccMat]
  rw [if_neg (by decide), if_true]

theorem ccMat_c2 (Rn Cn : ℕ) (M : Mat4) (r : Fin 4) : ccMat Rn Cn M r 2 = Dv r * M r 2 := by
  simp only [ccMat]
  rw [if_neg (by decide), if_neg (by decide), if_true]

theorem ccMat_c3 (Rn Cn : ℕ) (M : Mat4) (r : Fin 4) :
    ccMat Rn Cn M r 3 = Dv r * M r 3
      + (if Dv (xmaxiOf M) * M (xmaxiOf M) 0 < 0 then Dv r * M r 0 * ((Cn : ℚ) - 1) else 0)
      + (if Dv (ymaxiOf M) * M (ymaxiOf M) 1 < 0 then Dv r * M r 1 * ((Rn : ℚ) - 1) else 0) := by
  simp only [ccMat]
  rw [if_neg (by decide), if_neg (by decide), if_neg (by decide)]

theorem flipX_flipX {S R C : ℕ} (V : Vol S R C) : flipX (flipX V) = V := by
  funext s r c
  unfold flipX
  rw [Fin.rev_rev]

theorem flipY_flipY {S R C : ℕ} (V : Vol S R C) : flipY (flipY V) = V := by
  funext s r c
  unfold flipY
  rw [Fin.rev_rev]

theorem flipX_flipY {S R C : ℕ} (V : Vol S R C) : flipX (flipY V) = flipY (flipX V) := rfl

theorem mat4_ext_cols (A B : Mat4) (h0 : ∀ r, A r 0 = B r 0) (h1 : ∀ r, A r 1 = B r 1)
    (h2 : ∀ r, A r 2 = B r 2) (h3 : ∀ r, A r 3 = B r 3) : A = B := by
  funext r c
  fin_cases c
  · exact h0 r
  · exact h1 r
  · exact h2 r
  · exact h3 r

/-- The sequential embedding of `convert_coords` agrees with the closed
form `(ccVol, ccMat)`. -/
theorem convert_coords_eq {S R C : ℕ} (V : Vol S R C) (M : Mat4) :
    convert_coords V M = (ccVol M V, ccMat R C M) := by
  have h1 : (argmax4 fun r => |Dv r * M r 0|) = xmaxiOf M := by
    unfold xmaxiOf
    congr 1
    funext r
    rw [abs_mul, Dv_abs, one_mul]
  have h2 : (argmax4 fun r => if r = xmaxiOf M then 0 else |Dv r * M r 1|) = ymaxiOf M := by
    unfold ymaxiOf
    congr 1
    funext r
    by_cases hr : r = xmaxiOf M
    · rw [if_pos hr, if_pos hr]
    · rw [if_neg hr, if_neg hr, abs_mul, Dv_abs, one_mul]
  simp only [convert_coords]
  rw [h1, h2]
  by_cases hbx : Dv (xmaxiOf M) * M (xmaxiOf M) 0 < 0
  · rw [if_pos hbx]
    simp only [flipXmat_col1]
    by_cases hby : Dv (ymaxiOf M) * M (ymaxiOf M) 1 < 0
    · rw [if_pos hby, zeroFix_id]
      refine Prod.ext ?_ ?_
      · dsimp only
        simp only [ccVol, if_pos hbx, if_pos hby]
      · dsimp only
        refine mat4_ext_cols _ _ (fun r => ?_) (fun r => ?_) (fun r => ?_) (fun r => ?_)
        · rw [flipYmat_col0, flipXmat_col0, ccMat_c0, if_pos hbx]
          ring
        · rw [flipYmat_col1, flipXmat_col1, ccMat_c1, if_pos hby]
          ring
        · rw [flipYmat_col2, flipXmat_col2, ccMat_c2]
        · rw [flipYmat_col3, flipXmat_col3, flipXmat_col1, ccMat_c3, if_pos hbx, if_pos hby]
    · rw [if_neg hby, zeroFix_id]
      refine Prod.ext ?_ ?_
      · dsimp only
        simp only [ccVol, if_pos hbx, if_neg hby, id_eq]
      · dsimp only
        refine mat4_ext_cols _ _ (fun r => ?_) (fun r => ?_) (fun r => ?_) (fun r => ?_)
        · rw [flipXmat_col0, ccMat_c0, if_pos hbx]
          ring
        · rw [flipXmat_col1, ccMat_c1, if_neg hby]
          ring
        · rw [flipXmat_col2, ccMat_c2]
        · rw [flipXmat_col3, ccMat_c3, if_pos hbx, if_neg hby]
          ring
  · rw [if_neg hbx]
    by_cases hby : Dv (ymaxiOf M) * M (ymaxiOf M) 1 < 0
    · rw [if_pos hby, zeroFix_id]
      refine Prod.ext ?_ ?_
      · dsimp only
        simp only [ccVol, if_neg hbx, if_pos hby, id_eq]
      · dsimp only
        refine mat4_ext_cols _ _ (fun r => ?_) (fun r => ?_) (fun r => ?_) (fun r => ?_)
        · rw [flipYmat_col0, ccMat_c0, if_neg hbx]
          ring
        · rw [flipYmat_col1, ccMat_c1, if_pos hby]
          ring
        · rw [flipYmat_col2, ccMat_c2]
        · rw [flipYmat_col3, ccMat_c3, if_neg hbx, if_pos hby]
          ring
    · rw [if_neg hby, zeroFix_id]
      refine Prod.ext ?_ ?_
      · dsimp only
        simp only [ccVol, if_neg hbx, if_neg hby, id_eq]
      · dsimp only
        refine mat4_ext_cols _ _ (fun r => ?_) (fun r => ?_) (fun r => ?_) (fun r => ?_)
        · rw [ccMat_c0, if_neg hbx]
          ring
        · rw [ccMat_c1, if_neg hby]
          ring
        · rw [ccMat_c2]
        · rw [ccMat_c3, if_neg hbx, if_neg hby]
          ring

theorem ccMat_abs0 (Rn Cn : ℕ) (M : Mat4) (r : Fin 4) : |ccMat Rn Cn M r 0| = |M r 0| := by
  rw [ccMat_c0]
  by_cases hbx : Dv (xmaxiOf M) * M (xmaxiOf M) 0 < 0
  · rw [if_pos hbx, abs_mul, abs_mul, Dv_abs]
    norm_num
  · rw [if_neg hbx, abs_mul, abs_mul, Dv_abs]
    norm_num

theorem ccMat_abs1 (Rn Cn : ℕ) (M : Mat4) (r : Fin 4) : |ccMat Rn Cn M r 1| = |M r 1| := by
  rw [ccMat_c1]
  by_cases hby : Dv (ymaxiOf M) * M (ymaxiOf M) 1 < 0
  · rw [if_pos hby, abs_mul, abs_mul, Dv_abs]
    norm_num
  · rw [if_neg hby, abs_mul, abs_mul, Dv_abs]
    norm_num

theorem xmaxiOf_ccMat (Rn Cn : ℕ) (M : Mat4) : xmaxiOf (ccMat Rn Cn M) = xmaxiOf M := by
  unfold xmaxiOf
  congr 1
  funext r
  rw [ccMat_abs0]

theorem ymaxiOf_ccMat (Rn Cn : ℕ) (M : Mat4) : ymaxiOf (ccMat Rn Cn M) = ymaxiOf M := by
  unfold ymaxiOf
  rw [xmaxiOf_ccMat]
  congr 1
  funext r
  by_cases hr : r = xmaxiOf M
  · rw [if_pos hr, if_pos hr]
  · rw [if_neg hr, if_neg hr, ccMat_abs1]

theorem bx_ccMat (Rn Cn : ℕ) (M : Mat4) (hx : 0 ≤ M (xmaxiOf M) 0) :
    (Dv (xmaxiOf (ccMat Rn Cn M)) * ccMat Rn Cn M (xmaxiOf (ccMat Rn Cn M)) 0 < 0) ↔
      (Dv (xmaxiOf M) * M (xmaxiOf M) 0 < 0) := by
  rw [xmaxiOf_ccMat, ccMat_c0]
  rcases Dv_pm (xmaxiOf M) with hD | hD <;>
    by_cases hbx : Dv (xmaxiOf M) * M (xmaxiOf M) 0 < 0
  · exfalso
    rw [hD] at hbx
    linarith
  · rw [if_neg hbx, hD] at *
    constructor <;> intro h <;> linarith
  · rw [if_pos hbx, hD] at *
    constructor <;> intro h <;> linarith
  · rw [if_neg hbx, hD] at *
    constructor <;> intro h <;> linarith

theorem by_ccMat (Rn Cn : ℕ) (M : Mat4) (hy : 0 ≤ M (ymaxiOf M) 1) :
    (Dv (ymaxiOf (ccMat Rn Cn M)) * ccMat Rn Cn M (ymaxiOf (ccMat Rn Cn M)) 1 < 0) ↔
      (Dv (ymaxiOf M) * M (ymaxiOf M) 1 < 0) := by
  rw [ymaxiOf_ccMat, ccMat_c1]
  rcases Dv_pm (ymaxiOf M) with hD | hD <;>
    by_cases hby : Dv (ymaxiOf M) * M (ymaxiOf M) 1 < 0
  · exfalso
    rw [hD] at hby
    linarith
  · rw [if_neg hby, hD] at *
    constructor <;> intro h <;> linarith
  · rw [if_pos hby, hD] at *
    constructor <;> intro h <;> linarith
  · rw [if_neg hby, hD] at *
    constructor <;> intro h <;> linarith

/-- C3 (amended): `convert_coords` applied twice is the identity on every
volume/affine pair whose affine already has nonnegative dominant entries
`M[xmaxi,0]` and `M[ymaxi,1]` — in particular on every output of
`convert_coords` itself.  (On other inputs the double application
canonicalizes the matrix instead of restoring it; see the
counterexample.) -/
theorem convert_coords_involution_on_canonical {S R C : ℕ} (V : Vol S R C) (M : Mat4)
    (hx : 0 ≤ M (xmaxiOf M) 0) (hy : 0 ≤ M (ymaxiOf M) 1) :
    convert_coords (convert_coords V M).1 (convert_coords V M).2 = (V, M) := by
  rw [convert_coords_eq V M]
  dsimp only
  rw [convert_coords_eq (ccVol M V) (ccMat R C M)]
  have hbx2 := bx_ccMat R C M hx
  have hby2 := by_ccMat R C M hy
  refine Prod.ext ?_ ?_
  · dsimp only
    unfold ccVol
    by_cases hbx : Dv (xmaxiOf M) * M (xmaxiOf M) 0 < 0 <;>
      by_cases hby : Dv (ymaxiOf M) * M (ymaxiOf M) 1 < 0
    · rw [if_pos hbx, if_pos hby, if_pos (hbx2.mpr hbx), if_pos (hby2.mpr hby)]
      rw [flipX_flipY, flipY_flipY, flipX_flipX]
    · rw [if_pos hbx, if_neg hby, if_pos (hbx2.mpr hbx),
        if_neg (fun h => hby (hby2.mp h))]
      simp only [id_eq]
      rw [flipX_flipX]
    · rw [if_neg hbx, if_pos hby, if_neg (fun h => hbx (hbx2.mp h)),
        if_pos (hby2.mpr hby)]
      simp only [id_eq]
      rw [flipY_flipY]
    · rw [if_neg hbx, if_neg hby, if_neg (fun h => hbx (hbx2.mp h)),
        if_neg (fun h => hby (hby2.mp h))]
      simp only [id_eq]
  · dsimp only
    refine mat4_ext_cols _ _ (fun r => ?_) (fun r => ?_) (fun r => ?_) (fun r => ?_)
    · rw [ccMat_c0 R C (ccMat R C M) r]
      simp only [hbx2]
      simp only [ccMat_c0]
      split_ifs with h <;> rcases Dv_pm r with hD | hD <;> rw [hD] <;> ring
    · rw [ccMat_c1 R C (ccMat R C M) r]
      simp only [hby2]
      simp only [ccMat_c1]
      split_ifs with h <;> rcases Dv_pm r with hD | hD <;> rw [hD] <;> ring
    · rw [ccMat_c2 R C (ccMat R C M) r, ccMat_c2]
      rcases Dv_pm r with hD | hD <;> rw [hD] <;> ring
    · rw [ccMat_c3 R C (ccMat R C M) r]
      simp only [hbx2, hby2]
      simp only [ccMat_c0, ccMat_c1, ccMat_c3]
      split_ifs with h1 h2 <;> rcases Dv_pm r with hD | hD <;> rw [hD] <;> ring

/-- A trivial 1x1x1 volume of constant intensity 10. -/
def vol111 : Vol 1 1 1 := fun _ _ _ => 10

/-- The identity affine (already canonical: dominant entries positive). -/
def matId : Mat4 := ![![1, 0, 0, 0], ![0, 1, 0, 0], ![0, 0, 1, 0], ![0, 0, 0, 1]]

/-- An affine whose dominant x entry is negative: `diag(-1, 1, 1, 1)`. -/
def matDiagNeg : Mat4 := ![![-1, 0, 0, 0], ![0, 1, 0, 0], ![0, 0, 1, 0], ![0, 0, 0, 1]]

set_option maxRecDepth 100000 in
unseal Rat.mul Rat.add Rat.sub Rat.inv in
/-- C3 counterexample: `convert_coords` is not an involution.  On the
pair `(vol111, diag(-1,1,1,1))` the double application returns the
identity matrix, not the original affine: the first pass leaves the
already-positive post-conversion matrix alone, and the second pass
canonicalizes the sign away instead of restoring it. -/
theorem convert_coords_not_involutive :
    convert_coords (convert_coords vol111 matDiagNeg).1
      (convert_coords vol111 matDiagNeg).2 ≠ (vol111, matDiagNeg) := by decide

set_option maxRecDepth 100000 in
unseal Rat.mul Rat.add Rat.sub Rat.inv in
theorem convert_coords_involution_witness :
    convert_coords (convert_coords vol111 matId).1 (convert_coords vol111 matId).2 =
      (vol111, matId) :=
  convert_coords_involution_on_canonical vol111 matId (by decide) (by decide)

/-- C4 (amended): after normalization the matrix entries at `(xmaxi, 0)`
and `(ymaxi, 1)` are nonnegative, where `xmaxi` is the index of the ROW
with the largest-magnitude entry in spatial column 0 (as the code
computes it from `np.abs(mat[:,0])`), and `ymaxi` likewise on column 1
after zeroing the row claimed by `xmaxi`; the two indices are distinct
whenever column 1 has a nonzero entry in some row other than `xmaxi`. -/
theorem convert_coords_nonneg_dominant {S R C : ℕ} (V : Vol S R C) (M : Mat4) :
    0 ≤ (convert_coords V M).2 (xmaxiOf (convert_coords V M).2) 0 ∧
    0 ≤ (convert_coords V M).2 (ymaxiOf (convert_coords V M).2) 1 ∧
    ((∃ r, r ≠ xmaxiOf (convert_coords V M).2 ∧ (convert_coords V M).2 r 1 ≠ 0) →
      ymaxiOf (convert_coords V M).2 ≠ xmaxiOf (convert_coords V M).2) := by
  rw [convert_coords_eq]
  dsimp only
  refine ⟨?_, ?_, ?_⟩
  · rw [xmaxiOf_ccMat, ccMat_c0]
    by_cases hbx : Dv (xmaxiOf M) * M (xmaxiOf M) 0 < 0
    · rw [if_pos hbx]
      linarith
    · rw [if_neg hbx]
      linarith [not_lt.mp hbx]
  · rw [ymaxiOf_ccMat, ccMat_c1]
    by_cases hby : Dv (ymaxiOf M) * M (ymaxiOf M) 1 < 0
    · rw [if_pos hby]
      linarith
    · rw [if_neg hby]
      linarith [not_lt.mp hby]
  · rintro ⟨r, hr, hne⟩ heq
    have h1 := argmax4_le
      (fun t => if t = xmaxiOf (ccMat R C M) then 0 else |ccMat R C M t 1|) r
    rw [show argmax4
        (fun t => if t = xmaxiOf (ccMat R C M) then 0 else |ccMat R C M t 1|) =
        ymaxiOf (ccMat R C M) from rfl, heq] at h1
    simp only [if_pos rfl, if_neg hr] at h1
    exact hne (abs_eq_zero.mp (le_antisymm h1 (abs_nonneg _)))

set_option maxRecDepth 100000 in
unseal Rat.mul Rat.add Rat.sub Rat.inv in
theorem convert_coords_nonneg_dominant_witness :
    0 ≤ (convert_coords vol111 matId).2 (xmaxiOf (convert_coords vol111 matId).2) 0 ∧
    0 ≤ (convert_coords vol111 matId).2 (ymaxiOf (convert_coords vol111 matId).2) 1 ∧
    ymaxiOf (convert_coords vol111 matId).2 ≠ xmaxiOf (convert_coords vol111 matId).2 :=
  ⟨(convert_coords_nonneg_dominant vol111 matId).1,
    (convert_coords_nonneg_dominant vol111 matId).2.1,
    (convert_coords_nonneg_dominant vol111 matId).2.2 ⟨1, by decide, by decide⟩⟩

def argmaxStep3 (f : Fin 3 → ℚ) (best i : Fin 3) : Fin 3 :=
  if f best < f i then i else best

def argmax3 (f : Fin 3 → ℚ) : Fin 3 :=
  argmaxStep3 f (argmaxStep3 f 0 1) 2

/-- The claim's literal reading of `xmaxi`: the index of the spatial
COLUMN with the largest-magnitude entry in row 0 (the code instead scans
the rows of column 0). -/
def xmaxiSpec (M : Mat4) : Fin 3 := argmax3 fun c => |M 0 c.castSucc|

/-- The claim's literal reading of `ymaxi`: likewise on row 1 after
zeroing the column claimed by `xmaxiSpec`. -/
def ymaxiSpec (M : Mat4) : Fin 3 :=
  argmax3 fun c => if c = xmaxiSpec M then 0 else |M 1 c.castSucc|

/-- Input on which the claim's literal (column-scanning) reading of the
C4 invariant fails after normalization. -/
def matC4 : Mat4 :=
  ![![-1/10, -5, 0, 0], ![1/5, -1, 0, 0], ![1/2, 0, 1, 0], ![0, 0, 0, 1]]

set_option maxRecDepth 100000 in
unseal Rat.mul Rat.add Rat.sub Rat.inv in
/-- C4 counterexample: with `xmaxi` read as the claim states it (the
spatial column with the largest-magnitude entry in row 0), the
normalized matrix can have a negative entry at `(xmaxi, 0)`: here the
output row 0 is `(1/10, 5, 0)`, so the claim's `xmaxi = 1`, and the
entry at `(1, 0)` is `-1/5 < 0`. -/
theorem convert_coords_spec_indices_counterexample :
    ¬ (0 ≤ (convert_coords vol111 matC4).2
          ((xmaxiSpec (convert_coords vol111 matC4).2).castSucc) 0 ∧
        0 ≤ (convert_coords vol111 matC4).2
          ((ymaxiSpec (convert_coords vol111 matC4).2).castSucc) 1) := by decide

/-! ### Series Loader (`load_dicom_series`, dicom_to_nii.py lines 169-193) -/

/-- A pydicom dataset, abstracted: `instanceNumber` is `none` when
`int(ds.InstanceNumber)` raises `AttributeError` (absent) or
`ValueError` (unparseable); `payload` stands for the rest of the
dataset (pixel data, spacing, ...), so records are distinguishable. -/
structure Dataset where
  instanceNumber : Option ℤ
  payload : ℕ
deriving DecidableEq

/-- The ordering key of lines 181-185: `int(ds.InstanceNumber)` with
fallback `-1` on a missing or unparseable attribute. -/
def instKey (ds : Dataset) : ℤ := ds.instanceNumber.getD (-1)

/-- Keyed-tuple construction of line 185. -/
def keyed (ds : Dataset) : ℤ × Dataset := (instKey ds, ds)

/-- Embedding of `load_dicom_series` (lines 169-193): build the list of
`(InstanceNumber, DataSet)` tuples in input order, stably sort it by the
first component (`dataset_list.sort(key=lambda t: t[0])`; Python's sort
is stable, modeled by `List.insertionSort`), then project the datasets.
(The `sorted_files` lexical sort at line 175 is dead code: the loop at
line 179 iterates over `files`, not `sorted_files`.) -/
def load_dicom_series (files : List Dataset) : List Dataset :=
  ((files.map keyed).insertionSort fun a b => a.1 ≤ b.1).map Prod.snd

/-- The dataset-level comparison induced by the tuple sort. -/
def keyle (a b : Dataset) : Prop := instKey a ≤ instKey b

instance : DecidableRel keyle := fun a b => by
  unfold keyle
  infer_instance

theorem orderedInsert_map_keyed (a : Dataset) (l : List Dataset) :
    (l.map keyed).orderedInsert (fun p q => p.1 ≤ q.1) (keyed a) =
      (l.orderedInsert keyle a).map keyed := by
  induction l with
  | nil => rfl
  | cons b l ih =>
    by_cases h : instKey a ≤ instKey b
    · have h' : keyle a b := h
      simp only [List.map_cons, List.orderedInsert, if_pos h', List.map_cons]
      rw [if_pos (show (keyed a).1 ≤ (keyed b).1 from h)]
    · have h' : ¬ keyle a b := h
      simp only [List.map_cons, List.orderedInsert, if_neg h', List.map_cons, ih]
      rw [if_neg (show ¬ (keyed a).1 ≤ (keyed b).1 from h)]

theorem insertionSort_map_keyed (l : List Dataset) :
    (l.map keyed).insertionSort (fun p q => p.1 ≤ q.1) =
      (l.insertionSort keyle).map keyed := by
  induction l with
  | nil => rfl
  | cons b l ih =>
    simp only [List.map_cons, List.insertionSort, ih, orderedInsert_map_keyed]

/-- The tuple detour of the source is equivalent to stably sorting the
datasets by `instKey` directly. -/
theorem load_dicom_series_eq (files : List Dataset) :
    load_dicom_series files = files.insertionSort keyle := by
  unfold load_dicom_series
  rw [insertionSort_map_keyed, List.map_map]
  have h : (Prod.snd ∘ keyed) = fun ds : Dataset => ds := rfl
  rw [h, List.map_id']

theorem load_sorted (files : List Dataset) :
    List.Sorted keyle (load_dicom_series files) := by
  rw [load_dicom_series_eq]
  haveI : IsTotal Dataset keyle := ⟨fun a b => le_total (instKey a) (instKey b)⟩
  haveI : IsTrans Dataset keyle := ⟨fun a b c hab hbc => le_trans hab hbc⟩
  exact List.sorted_insertionSort keyle files

theorem load_perm (files : List Dataset) : (load_dicom_series files).Perm files := by
  rw [load_dicom_series_eq]
  exact List.perm_insertionSort keyle files

theorem filter_orderedInsert_key (k : ℤ) (a : Dataset) (l : List Dataset) :
    (l.orderedInsert keyle a).filter (fun ds => instKey ds == k) =
      if instKey a == k then a :: l.filter (fun ds => instKey ds == k)
      else l.filter (fun ds => instKey ds == k) := by
  induction l with
  | nil =>
    by_cases hak : instKey a == k
    · simp [List.orderedInsert, List.filter, hak]
    · simp [List.orderedInsert, List.filter, hak]
  | cons b l ih =>
    by_cases hab : keyle a b
    · rw [List.orderedInsert, if_pos hab]
      by_cases hak : instKey a == k <;> simp [List.filter_cons, hak]
    · rw [List.orderedInsert, if_neg hab]
      by_cases hak : instKey a == k
      · have hbk : ¬ (instKey b == k) := by
          intro hbk
          apply hab
          unfold keyle
          rw [beq_iff_eq] at hak hbk
          rw [hak, hbk]
        simp [List.filter_cons, hak, hbk, ih]
      · by_cases hbk : instKey b == k <;> simp [List.filter_cons, hak, hbk, ih]

/-- Stability: for every key `k`, the records with key `k` appear in the
output in exactly their input order. -/
theorem load_filter_stable (files : List Dataset) (k : ℤ) :
    (load_dicom_series files).filter (fun ds => instKey ds == k) =
      files.filter (fun ds => instKey ds == k) := by
  rw [load_dicom_series_eq]
  induction files with
  | nil => rfl
  | cons f l ih =>
    rw [List.insertionSort, filter_orderedInsert_key]
    by_cases hfk : instKey f == k
    · rw [if_pos hfk, ih, List.filter_cons, if_pos hfk]
    · rw [if_neg hfk, ih, List.filter_cons, if_neg hfk]

/-- C8 (amended): the Series Loader returns the records sorted by
ascending key, as a permutation of the input, with equal-key records in
their stable input order; a record with missing/unparseable instance
index gets key `-1` without raising, which sorts it before every record
whose parsed instance index is nonnegative (not before records with
negative instance indices; see the counterexample). -/
theorem load_dicom_series_spec (files : List Dataset) :
    List.Sorted keyle (load_dicom_series files) ∧
    (load_dicom_series files).Perm files ∧
    (∀ k : ℤ, (load_dicom_series files).filter (fun ds => instKey ds == k) =
      files.filter (fun ds => instKey ds == k)) ∧
    (∀ ds : Dataset, ds.instanceNumber = none → instKey ds = -1) ∧
    (∀ ds ds' : Dataset, ∀ k : ℤ, ds.instanceNumber = none →
      ds'.instanceNumber = some k → 0 ≤ k → instKey ds ≤ instKey ds') := by
  refine ⟨load_sorted files, load_perm files, load_filter_stable files, ?_, ?_⟩
  · intro ds h
    unfold instKey
    rw [h]
    rfl
  · intro ds ds' k h h' hk
    unfold instKey
    rw [h, h']
    simp only [Option.getD_none, Option.getD_some]
    omega

/-- Two records with a missing instance index, one record with index 7. -/
def dsNone : Dataset := ⟨none, 1⟩

def dsSeven : Dataset := ⟨some 7, 2⟩

def dsNegFive : Dataset := ⟨some (-5), 3⟩

theorem load_dicom_series_spec_witness :
    List.Sorted keyle (load_dicom_series [dsSeven, dsNone]) ∧
    (load_dicom_series [dsSeven, dsNone]).Perm [dsSeven, dsNone] ∧
    (load_dicom_series [dsSeven, dsNone]).filter (fun ds => instKey ds == 7) =
      [dsSeven, dsNone].filter (fun ds => instKey ds == 7) ∧
    instKey dsNone = -1 ∧
    instKey dsNone ≤ instKey dsSeven :=
  ⟨(load_dicom_series_spec [dsSeven, dsNone]).1,
    (load_dicom_series_spec [dsSeven, dsNone]).2.1,
    (load_dicom_series_spec [dsSeven, dsNone]).2.2.1 7,
    (load_dicom_series_spec [dsSeven, dsNone]).2.2.2.1 dsNone rfl,
    (load_dicom_series_spec [dsSeven, dsNone]).2.2.2.2 dsNone dsSeven 7 rfl rfl
      (by decide)⟩

/-- C8 counterexample: a missing-index record does NOT always sort
first.  Against a record with (legal but unusual) negative
InstanceNumber `-5`, the `-1` fallback key sorts second: the loader
returns `[dsNegFive, dsNone]`, with the missing-index record last. -/
theorem load_missing_index_not_first :
    dsNone.instanceNumber = none ∧
    load_dicom_series [dsNegFive, dsNone] = [dsNegFive, dsNone] ∧
    (load_dicom_series [dsNegFive, dsNone]).head? = some dsNegFive ∧
    dsNegFive ≠ dsNone := by decide

/-- The empty-series checks of the caller `dicom_to_nifti`
(lines 259-268): abort with a message when no files are found, or when
the loaded series is empty; otherwise continue with the series. -/
def dicom_to_nifti_load (files : List Dataset) : Except String (List Dataset) :=
  if files.isEmpty then Except.error "No DICOM files found."
  else
    let series := load_dicom_series files
    if series.isEmpty then Except.error "Unable to read DICOM files."
    else Except.ok series

/-- C9 counterexample: on zero records the Series Loader does NOT fail;
it silently returns the empty series (the abort happens only in the
caller). -/
theorem load_dicom_series_empty : load_dicom_series [] = ([] : List Dataset) := rfl

/-- C9 (amended): `load_dicom_series` returns `[]` for zero records, and
the caller `dicom_to_nifti` is what aborts: it reports "No DICOM files
found." for an empty collection and never reaches reconstruction with
an empty series; with at least one record it proceeds with the loaded
series. -/
theorem dicom_to_nifti_empty_series (files : List Dataset) :
    load_dicom_series [] = ([] : List Dataset) ∧
    dicom_to_nifti_load [] = Except.error "No DICOM files found." ∧
    (files ≠ [] → dicom_to_nifti_load files = Except.ok (load_dicom_series files)) := by
  refine ⟨rfl, rfl, ?_⟩
  intro hne
  unfold dicom_to_nifti_load
  rw [if_neg (by simpa using hne)]
  have hlen : (load_dicom_series files).length = files.length :=
    (load_perm files).length_eq
  rw [if_neg ?_]
  intro hemp
  rw [List.isEmpty_iff] at hemp
  apply hne
  rw [← List.length_eq_zero, ← hlen, hemp]
  rfl

theorem dicom_to_nifti_empty_series_witness :
    load_dicom_series [] = ([] : List Dataset) ∧
    dicom_to_nifti_load [] = Except.error "No DICOM files found." ∧
    dicom_to_nifti_load [dsSeven] = Except.ok (load_dicom_series [dsSeven]) :=
  ⟨(dicom_to_nifti_empty_series [dsSeven]).1,
    (dicom_to_nifti_empty_series [dsSeven]).2.1,
    (dicom_to_nifti_empty_series [dsSeven]).2.2 (by decide)⟩

/-! ### Volume Reconstructor (`create_affine`, dicom_to_nii.py lines 42-99)

Embedded over `ℝ`.  The metadata arrays `ipp` (Nx3), `iop` (Nx6) and
`ps` (Nx2) are total functions from the slice index with an explicit
slice count `n`; only indices `< n` are ever read. -/

noncomputable section

/-- Elementwise `x[np.abs(x) < 1e-6] = 0.0` (lines 59, 80, 81): values
of magnitude below `1e-6` are snapped to exactly zero. -/
def snap (x : ℝ) : ℝ := if |x| < 1e-6 then 0 else x

def sumIdx (n : ℕ) : ℝ := ∑ i in Finset.range n, (i : ℝ)

def sumIdxSq (n : ℕ) : ℝ := ∑ i in Finset.range n, (i : ℝ) ^ 2

/-- Determinant of the 2x2 normal-equation system of the regression
against slice index `0..n-1`; nonzero for `n ≥ 2`. -/
def lstsqDen (n : ℕ) : ℝ := n * sumIdxSq n - sumIdx n ^ 2

/-- Lines 54-57: `x, r, rank, s = np.linalg.lstsq(A, ipp)` with
`A = column_stack([arange(n), ones(n)])`.  For `n ≥ 2` the design
matrix has full rank and `lstsq` returns the unique least-squares
solution, whose closed form by the normal equations is the textbook
simple-linear-regression slope (`x[0,:]`, per component). -/
def slopeLS (n : ℕ) (ipp : ℕ → Fin 3 → ℝ) (j : Fin 3) : ℝ :=
  (n * (∑ i in Finset.range n, (i : ℝ) * ipp i j) -
      sumIdx n * ∑ i in Finset.range n, ipp i j) / lstsqDen n

/-- The corresponding intercept `x[1,:]` (position of slice 0). -/
def interceptLS (n : ℕ) (ipp : ℕ → Fin 3 → ℝ) (j : Fin 3) : ℝ :=
  ((∑ i in Finset.range n, ipp i j) * sumIdxSq n -
      sumIdx n * ∑ i in Finset.range n, (i : ℝ) * ipp i j) / lstsqDen n

/-- Slope `vec = x[0,:]` after the snap of line 59. -/
def vecOf (n : ℕ) (ipp : ℕ → Fin 3 → ℝ) (j : Fin 3) : ℝ := snap (slopeLS n ipp j)

/-- Intercept `pos = x[1,:]` after the snap of line 59 (the snap at line 59 hits
the whole 2x3 array `x`, slope and intercept alike). -/
def posOf (n : ℕ) (ipp : ℕ → Fin 3 → ℝ) (j : Fin 3) : ℝ := snap (interceptLS n ipp j)

/-- Embedding of `np.sqrt(np.sum(np.square(w)))` for a 3-vector. -/
def norm3 (w : Fin 3 → ℝ) : ℝ := Real.sqrt (∑ j : Fin 3, w j ^ 2)

/-- Embedding of `np.round(x, 7)` (line 70).  numpy rounds half to even; `round`
rounds half up; the two agree except at exact half-ulp ties. -/
def round7 (x : ℝ) : ℝ := round (x * 10 ^ 7) / 10 ^ 7

/-- Embedding of `iop_average = np.mean(iop, axis=0)` (line 73): a fresh 6-vector. -/
def iopMean (n : ℕ) (iop : ℕ → Fin 6 → ℝ) (j : Fin 6) : ℝ :=
  (∑ i in Finset.range n, iop i j) / n

/-- View `u = iop_average[0:3]` before normalization. -/
def uRaw (n : ℕ) (iop : ℕ → Fin 6 → ℝ) : Fin 3 → ℝ :=
  fun j => iopMean n iop (Fin.castLE (by norm_num) j)

/-- View `v = iop_average[3:6]` before normalization. -/
def vRaw (n : ℕ) (iop : ℕ → Fin 6 → ℝ) : Fin 3 → ℝ :=
  fun j => iopMean n iop (j.addNat 3)

/-- Embedding of `w /= np.sqrt(np.sum(np.square(w)))` (lines 75, 77). -/
def unitize (w : Fin 3 → ℝ) : Fin 3 → ℝ := fun j => w j / norm3 w

/-- The row-direction unit vector after normalization and snap
(lines 74-75, 80). -/
def uOf (n : ℕ) (iop : ℕ → Fin 6 → ℝ) : Fin 3 → ℝ :=
  fun j => snap (unitize (uRaw n iop) j)

/-- The column-direction unit vector after normalization and snap
(lines 76-77, 81). -/
def vOf (n : ℕ) (iop : ℕ → Fin 6 → ℝ) : Fin 3 → ℝ :=
  fun j => snap (unitize (vRaw n iop) j)

/-- Embedding of `np.cross(u, v)`. -/
def crossOf (a b : Fin 3 → ℝ) : Fin 3 → ℝ :=
  ![a 1 * b 2 - a 2 * b 1, a 2 * b 0 - a 0 * b 2, a 0 * b 1 - a 1 * b 0]

/-- Embedding of `np.dot`. -/
def dot3 (a b : Fin 3 → ℝ) : ℝ := ∑ j : Fin 3, a j * b j

/-- Value `dv = np.dot(vec, np.cross(u, v))` (line 91). -/
def dvOf (n : ℕ) (ipp : ℕ → Fin 3 → ℝ) (iop : ℕ → Fin 6 → ℝ) : ℝ :=
  dot3 (vecOf n ipp) (crossOf (uOf n iop) (vOf n iop))

/-- Value `qfac = np.sign(dv)` (line 92); `Real.sign` has the same value table
(-1 below zero, 1 above, 0 at 0). -/
def qfacOf (n : ℕ) (ipp : ℕ → Fin 3 → ℝ) (iop : ℕ → Fin 6 → ℝ) : ℝ :=
  Real.sign (dvOf n ipp iop)

/-- The affine of lines 84-88: `np.eye(4)` with rows 0-2 of columns 0-3
overwritten by `u*spacing[0]`, `v*spacing[1]`, `vec`, `pos`. -/
def matOf (n : ℕ) (ipp : ℕ → Fin 3 → ℝ) (iop : ℕ → Fin 6 → ℝ)
    (ps : ℕ → Fin 2 → ℝ) : Fin 4 → Fin 4 → ℝ := fun r c =>
  if hr : r.val < 3 then
    if c = 0 then uOf n iop ⟨r.val, hr⟩ * ps 0 0
    else if c = 1 then vOf n iop ⟨r.val, hr⟩ * ps 0 1
    else if c = 2 then vecOf n ipp ⟨r.val, hr⟩
    else posOf n ipp ⟨r.val, hr⟩
  else if c = 3 then 1 else 0

/-- Vector `pixdim = hstack([sign(dv), spacing])` (line 97), with
`spacing = (ps[0,0], ps[0,1], round(norm(vec), 7))` (lines 64-70). -/
def pixdimOf (n : ℕ) (ipp : ℕ → Fin 3 → ℝ) (iop : ℕ → Fin 6 → ℝ)
    (ps : ℕ → Fin 2 → ℝ) : Fin 4 → ℝ :=
  ![qfacOf n ipp iop, ps 0 0, ps 0 1, round7 (norm3 (vecOf n ipp))]

/-- Result of `create_affine`: the warning flags record exactly the
conditions under which lines 67 and 94 write to stderr; the function is
total — geometric inconsistency never raises. -/
structure CAResult where
  mat : Fin 4 → Fin 4 → ℝ
  pixdim : Fin 4 → ℝ
  warnSpacing : Prop
  warnOrtho : Prop

/-- Shallow embedding of `create_affine(ipp, iop, ps)` (lines 42-99). -/
def create_affine (n : ℕ) (ipp : ℕ → Fin 3 → ℝ) (iop : ℕ → Fin 6 → ℝ)
    (ps : ℕ → Fin 2 → ℝ) : CAResult where
  mat := matOf n ipp iop ps
  pixdim := pixdimOf n ipp iop ps
  warnSpacing := (∑ i in Finset.range n, ∑ j : Fin 2, |ps i j - ps 0 j|) > ps 0 0 * 1e-6
  warnOrtho := |qfacOf n ipp iop * dvOf n ipp iop - round7 (norm3 (vecOf n ipp))| > 1e-6

end

/-- C7: inconsistent spacing and non-orthogonality are surfaced as
warning flags of the (total) embedding, never as failures: the spacing
warning holds iff the summed absolute deviation of all slices' pixel
spacings from slice 0's spacing exceeds `spacing[0]*1e-6`, the
orthogonality warning holds iff `|qfac*dv - spacing[2]| > 1e-6`, and in
all cases the result is built from the FIRST slice's spacing (columns 0
and 1 of the affine and entries 1 and 2 of pixdim). -/
theorem create_affine_warnings (n : ℕ) (ipp : ℕ → Fin 3 → ℝ) (iop : ℕ → Fin 6 → ℝ)
    (ps : ℕ → Fin 2 → ℝ) :
    ((create_affine n ipp iop ps).warnSpacing ↔
      (∑ i in Finset.range n, ∑ j : Fin 2, |ps i j - ps 0 j|) > ps 0 0 * 1e-6) ∧
    ((create_affine n ipp iop ps).warnOrtho ↔
      |qfacOf n ipp iop * dvOf n ipp iop - (create_affine n ipp iop ps).pixdim 3| > 1e-6) ∧
    (∀ r3 : Fin 3,
      (create_affine n ipp iop ps).mat (Fin.castLE (by norm_num) r3) 0 =
        uOf n iop r3 * ps 0 0 ∧
      (create_affine n ipp iop ps).mat (Fin.castLE (by norm_num) r3) 1 =
        vOf n iop r3 * ps 0 1) ∧
    (create_affine n ipp iop ps).pixdim 1 = ps 0 0 ∧
    (create_affine n ipp iop ps).pixdim 2 = ps 0 1 := by
  refine ⟨Iff.rfl, Iff.rfl, ?_, ?_, ?_⟩
  · intro r3
    constructor
    · show matOf n ipp iop ps _ 0 = _
      unfold matOf
      split
      · rw [if_pos rfl]
        rfl
      · exact absurd r3.isLt (by assumption)
    · show matOf n ipp iop ps _ 1 = _
      unfold matOf
      split
      · rw [if_neg (by decide), if_pos rfl]
        rfl
      · exact absurd r3.isLt (by assumption)
  · show pixdimOf n ipp iop ps 1 = ps 0 0
    unfold pixdimOf
    rw [Matrix.cons_val_one, Matrix.head_cons]
  · show pixdimOf n ipp iop ps 2 = ps 0 1
    unfold pixdimOf
    rfl

/-- Regular test series: slice `i` at position `(0, 0, 2 i)`. -/
noncomputable def ippW : ℕ → Fin 3 → ℝ := fun i => ![0, 0, 2 * i]

/-- Degenerate series: every slice at the origin. -/
noncomputable def ippZ : ℕ → Fin 3 → ℝ := fun _ => ![0, 0, 0]

/-- Axial orientation `(1,0,0,0,1,0)` for every slice. -/
noncomputable def iopW : ℕ → Fin 6 → ℝ := fun _ => ![1, 0, 0, 0, 1, 0]

/-- Unit pixel spacing for every slice. -/
noncomputable def psW : ℕ → Fin 2 → ℝ := fun _ => ![1, 1]

theorem sumIdx_two : sumIdx 2 = 1 := by
  simp [sumIdx, Finset.sum_range_succ]

theorem sumIdxSq_two : sumIdxSq 2 = 1 := by
  simp [sumIdxSq, Finset.sum_range_succ]

theorem lstsqDen_two : lstsqDen 2 = 1 := by
  rw [lstsqDen, sumIdx_two, sumIdxSq_two]
  norm_num

theorem iopMean_W (k : Fin 6) : iopMean 2 iopW k = ![1, 0, 0, 0, 1, 0] k := by
  rw [iopMean, Finset.sum_range_succ, Finset.sum_range_succ, Finset.sum_range_zero]
  show (0 + ![(1:ℝ), 0, 0, 0, 1, 0] k + ![1, 0, 0, 0, 1, 0] k) / 2 = _
  ring

theorem uRaw_W : uRaw 2 iopW = ![1, 0, 0] := by
  funext j
  rw [show uRaw 2 iopW j = iopMean 2 iopW (Fin.castLE (by norm_num) j) from rfl, iopMean_W]
  fin_cases j <;> rfl

theorem vRaw_W : vRaw 2 iopW = ![0, 1, 0] := by
  funext j
  rw [show vRaw 2 iopW j = iopMean 2 iopW (j.addNat 3) from rfl, iopMean_W]
  fin_cases j <;> rfl

theorem norm3_e0 : norm3 ![1, 0, 0] = 1 := by
  rw [norm3, Fin.sum_univ_three]
  norm_num

theorem norm3_e1 : norm3 ![0, 1, 0] = 1 := by
  rw [norm3, Fin.sum_univ_three]
  norm_num

theorem uOf_W : uOf 2 iopW = ![1, 0, 0] := by
  funext j
  rw [show uOf 2 iopW j = snap (unitize (uRaw 2 iopW) j) from rfl, uRaw_W]
  fin_cases j <;> simp [unitize, snap, norm3_e0] <;> norm_num

theorem vOf_W : vOf 2 iopW = ![0, 1, 0] := by
  funext j
  rw [show vOf 2 iopW j = snap (unitize (vRaw 2 iopW) j) from rfl, vRaw_W]
  fin_cases j <;> simp [unitize, snap, norm3_e1] <;> norm_num

theorem vecOf_W : vecOf 2 ippW = ![0, 0, 2] := by
  funext j
  fin_cases j <;>
    simp [vecOf, slopeLS, sumIdx_two, sumIdxSq_two, lstsqDen_two, ippW, snap,
      Finset.sum_range_succ] <;> norm_num

theorem vecOf_Z : vecOf 2 ippZ = ![0, 0, 0] := by
  funext j
  fin_cases j <;>
    simp [vecOf, slopeLS, sumIdx_two, sumIdxSq_two, lstsqDen_two, ippZ, snap,
      Finset.sum_range_succ] <;> norm_num

theorem dvOf_W : dvOf 2 ippW iopW = 2 := by
  rw [dvOf, uOf_W, vOf_W, vecOf_W]
  simp [dot3, crossOf, Fin.sum_univ_three]

theorem dvOf_Z : dvOf 2 ippZ iopW = 0 := by
  rw [dvOf, vecOf_Z]
  simp [dot3, Fin.sum_univ_three]

/-- C6 (amended): the reconstructor returns the 4-vector
`(qfac, spacingCol, spacingRow, spacingSlice)` with
`qfac = sign(dv)`, and `qfac` is `+1` or `-1` whenever `dv ≠ 0`; when
`dv = 0` (degenerate geometry, e.g. coincident slices) `np.sign`
returns `0`, not a unit (see the counterexample). -/
theorem create_affine_pixdim_qfac (n : ℕ) (ipp : ℕ → Fin 3 → ℝ) (iop : ℕ → Fin 6 → ℝ)
    (ps : ℕ → Fin 2 → ℝ) (h : dvOf n ipp iop ≠ 0) :
    (create_affine n ipp iop ps).pixdim =
      ![Real.sign (dvOf n ipp iop), ps 0 0, ps 0 1, round7 (norm3 (vecOf n ipp))] ∧
    ((create_affine n ipp iop ps).pixdim 0 = 1 ∨
      (create_affine n ipp iop ps).pixdim 0 = -1) := by
  constructor
  · rfl
  · rw [show (create_affine n ipp iop ps).pixdim 0 = Real.sign (dvOf n ipp iop) from rfl]
    rcases lt_trichotomy (dvOf n ipp iop) 0 with hlt | heq | hgt
    · right
      exact Real.sign_of_neg hlt
    · exact absurd heq h
    · left
      exact Real.sign_of_pos hgt

theorem create_affine_pixdim_qfac_witness :
    dvOf 2 ippW iopW ≠ 0 ∧
    ((create_affine 2 ippW iopW psW).pixdim =
        ![Real.sign (dvOf 2 ippW iopW), psW 0 0, psW 0 1,
          round7 (norm3 (vecOf 2 ippW))] ∧
      ((create_affine 2 ippW iopW psW).pixdim 0 = 1 ∨
        (create_affine 2 ippW iopW psW).pixdim 0 = -1)) :=
  have h : dvOf 2 ippW iopW ≠ 0 := by
    rw [dvOf_W]
    norm_num
  ⟨h, create_affine_pixdim_qfac 2 ippW iopW psW h⟩

/-- C6 counterexample: on a series whose slices coincide (so `vec = 0`
and `dv = 0`), `qfac = np.sign(0) = 0` — the returned `qfac` is neither
`+1` nor `-1`. -/
theorem create_affine_qfac_zero :
    (create_affine 2 ippZ iopW psW).pixdim 0 = 0 ∧
    (create_affine 2 ippZ iopW psW).pixdim 0 ≠ 1 ∧
    (create_affine 2 ippZ iopW psW).pixdim 0 ≠ -1 := by
  have h : (create_affine 2 ippZ iopW psW).pixdim 0 = Real.sign (dvOf 2 ippZ iopW) := rfl
  rw [h, dvOf_Z, Real.sign_zero]
  norm_num

theorem snap_small (x : ℝ) (h : |snap x| < 1e-6) : snap x = 0 := by
  unfold snap at h ⊢
  by_cases hx : |x| < 1e-6
  · rw [if_pos hx]
  · rw [if_neg hx] at h
    exact absurd h hx

theorem snap_mul_small (x sp : ℝ) (hsp : 1 ≤ sp) (h : |snap x * sp| < 1e-6) :
    snap x * sp = 0 := by
  have hsp0 : 0 ≤ sp := le_trans zero_le_one hsp
  have habs : |snap x| ≤ |snap x * sp| := by
    rw [abs_mul, abs_of_nonneg hsp0]
    exact le_mul_of_one_le_right (abs_nonneg _) hsp
  have hx : snap x = 0 := snap_small x (lt_of_le_of_lt habs h)
  rw [hx, zero_mul]

/-- C5 (amended): provided both in-plane pixel spacings are at least 1,
every entry of the output affine of magnitude below `1e-6` is exactly
zero (the slice-step and translation columns are snapped outright; the
scaled orientation columns inherit the property because scaling by
`spacing >= 1` cannot shrink a surviving component below the
threshold — with spacing < 1 it can, see the counterexample); and the
negative-zero fixup of the Coordinate Normalizer is the value-level
identity. -/
theorem create_affine_small_entries (n : ℕ) (ipp : ℕ → Fin 3 → ℝ)
    (iop : ℕ → Fin 6 → ℝ) (ps : ℕ → Fin 2 → ℝ) (r c : Fin 4)
    (h0 : 1 ≤ ps 0 0) (h1 : 1 ≤ ps 0 1)
    (hsmall : |(create_affine n ipp iop ps).mat r c| < 1e-6) :
    (create_affine n ipp iop ps).mat r c = 0 ∧ ∀ M : Mat4, zeroFix M = M := by
  refine ⟨?_, zeroFix_id⟩
  have hm : (create_affine n ipp iop ps).mat r c = matOf n ipp iop ps r c := rfl
  rw [hm] at hsmall ⊢
  unfold matOf at hsmall ⊢
  by_cases hr : (r : ℕ) < 3
  · rw [dif_pos hr] at hsmall ⊢
    by_cases hc0 : c = 0
    · rw [if_pos hc0] at hsmall ⊢
      exact snap_mul_small _ _ h0 hsmall
    · rw [if_neg hc0] at hsmall ⊢
      by_cases hc1 : c = 1
      · rw [if_pos hc1] at hsmall ⊢
        exact snap_mul_small _ _ h1 hsmall
      · rw [if_neg hc1] at hsmall ⊢
        by_cases hc2 : c = 2
        · rw [if_pos hc2] at hsmall ⊢
          exact snap_small _ hsmall
        · rw [if_neg hc2] at hsmall ⊢
          exact snap_small _ hsmall
  · rw [dif_neg hr] at hsmall ⊢
    by_cases hc3 : c = 3
    · rw [if_pos hc3] at hsmall ⊢
      norm_num at hsmall
    · rw [if_neg hc3] at hsmall ⊢

theorem create_affine_small_entries_witness :
    1 ≤ psW 0 0 ∧ 1 ≤ psW 0 1 ∧
    |(create_affine 2 ippW iopW psW).mat 1 0| < 1e-6 ∧
    ((create_affine 2 ippW iopW psW).mat 1 0 = 0 ∧ ∀ M : Mat4, zeroFix M = M) := by
  have hps0 : (1 : ℝ) ≤ psW 0 0 := by norm_num [psW]
  have hps1 : (1 : ℝ) ≤ psW 0 1 := by norm_num [psW]
  have hval : (create_affine 2 ippW iopW psW).mat 1 0 = 0 := by
    rw [show (create_affine 2 ippW iopW psW).mat 1 0 =
        uOf 2 iopW 1 * psW 0 0 from rfl, uOf_W]
    rw [Matrix.cons_val_one, Matrix.head_cons, zero_mul]
  have hsmall : |(create_affine 2 ippW iopW psW).mat 1 0| < 1e-6 := by
    rw [hval]
    norm_num
  exact ⟨hps0, hps1, hsmall,
    create_affine_small_entries 2 ippW iopW psW 1 0 hps0 hps1 hsmall⟩

/-- Orientation with a tiny second component `1.5e-6 = 3/2000000`. -/
noncomputable def iop5 : ℕ → Fin 6 → ℝ := fun _ => ![1, 3 / 2000000, 0, 0, 1, 0]

/-- Half-unit pixel spacing. -/
noncomputable def ps5 : ℕ → Fin 2 → ℝ := fun _ => ![1 / 2, 1 / 2]

theorem iopMean_5 (k : Fin 6) : iopMean 2 iop5 k = ![1, 3 / 2000000, 0, 0, 1, 0] k := by
  rw [iopMean, Finset.sum_range_succ, Finset.sum_range_succ, Finset.sum_range_zero]
  show (0 + ![(1 : ℝ), 3 / 2000000, 0, 0, 1, 0] k + ![1, 3 / 2000000, 0, 0, 1, 0] k) / 2 = _
  ring

theorem uRaw_5 : uRaw 2 iop5 = ![1, 3 / 2000000, 0] := by
  funext j
  rw [show uRaw 2 iop5 j = iopMean 2 iop5 (Fin.castLE (by norm_num) j) from rfl, iopMean_5]
  fin_cases j <;> rfl

theorem norm3_vec (a b c : ℝ) : norm3 ![a, b, c] = Real.sqrt (a ^ 2 + b ^ 2 + c ^ 2) := by
  rw [norm3, Fin.sum_univ_three]
  rfl

/-- C5 counterexample: with pixel spacing 1/2 and a surviving (not
snapped) orientation component of `1.5e-6`, the output affine entry
`mat[1,0] = 0.75e-6 / sqrt(1 + (1.5e-6)^2)` has magnitude below `1e-6`
yet is not zero. -/
theorem create_affine_small_entry_nonzero :
    |(create_affine 2 ippZ iop5 ps5).mat 1 0| < 1e-6 ∧
    (create_affine 2 ippZ iop5 ps5).mat 1 0 ≠ 0 := by
  have hW1 : (1 : ℝ) ≤ Real.sqrt (1 + (3 / 2000000) ^ 2) :=
    (Real.le_sqrt (by norm_num) (by positivity)).mpr (by norm_num)
  have hW2 : Real.sqrt (1 + ((3 : ℝ) / 2000000) ^ 2) ≤ 3 / 2 := by
    rw [show (3 : ℝ) / 2 = Real.sqrt ((3 / 2) ^ 2) from (Real.sqrt_sq (by norm_num)).symm]
    exact Real.sqrt_le_sqrt (by norm_num)
  have hW0 : (0 : ℝ) < Real.sqrt (1 + (3 / 2000000) ^ 2) :=
    Real.sqrt_pos.mpr (by positivity)
  have hu : uOf 2 iop5 1 =
      3 / 2000000 / Real.sqrt (1 + ((3 : ℝ) / 2000000) ^ 2) := by
    rw [show uOf 2 iop5 1 =
        snap (uRaw 2 iop5 1 / norm3 (uRaw 2 iop5)) from rfl]
    rw [uRaw_5, norm3_vec]
    rw [Matrix.cons_val_one, Matrix.head_cons]
    rw [show (1 : ℝ) ^ 2 + (3 / 2000000) ^ 2 + 0 ^ 2 = 1 + (3 / 2000000) ^ 2 by norm_num]
    unfold snap
    rw [if_neg]
    rw [not_lt, abs_of_pos (by positivity), le_div_iff hW0]
    nlinarith [hW2]
  have hmat : (create_affine 2 ippZ iop5 ps5).mat 1 0 =
      3 / 2000000 / Real.sqrt (1 + ((3 : ℝ) / 2000000) ^ 2) * (1 / 2) := by
    rw [show (create_affine 2 ippZ iop5 ps5).mat 1 0 =
        uOf 2 iop5 1 * ps5 0 0 from rfl, hu]
    rw [show ps5 0 0 = 1 / 2 from rfl]
  constructor
  · rw [hmat, abs_of_pos (by positivity)]
    have hle : (3 : ℝ) / 2000000 / Real.sqrt (1 + ((3 : ℝ) / 2000000) ^ 2) ≤
        3 / 2000000 := div_le_self (by norm_num) hW1
    nlinarith [hle]
  · rw [hmat]
    have hpos : (0 : ℝ) <
        3 / 2000000 / Real.sqrt (1 + ((3 : ℝ) / 2000000) ^ 2) * (1 / 2) := by
      positivity
    exact ne_of_gt hpos

theorem sumIdx_formula (n : ℕ) : sumIdx n = n * ((n : ℝ) - 1) / 2 := by
  induction n with
  | zero =>
    rw [sumIdx]
    norm_num
  | succ m ih =>
    have h : sumIdx (m + 1) = sumIdx m + m := by
      rw [sumIdx, sumIdx, Finset.sum_range_succ]
    rw [h, ih]
    push_cast
    ring

theorem sumIdxSq_formula (n : ℕ) :
    sumIdxSq n = n * ((n : ℝ) - 1) * (2 * n - 1) / 6 := by
  induction n with
  | zero =>
    rw [sumIdxSq]
    norm_num
  | succ m ih =>
    have h : sumIdxSq (m + 1) = sumIdxSq m + (m : ℝ) ^ 2 := by
      rw [sumIdxSq, sumIdxSq, Finset.sum_range_succ]
    rw [h, ih]
    push_cast
    ring

theorem lstsqDen_pos (n : ℕ) (hn : 2 ≤ n) : 0 < lstsqDen n := by
  have hD : lstsqDen n = (n : ℝ) ^ 2 * ((n : ℝ) - 1) * ((n : ℝ) + 1) / 12 := by
    rw [lstsqDen, sumIdx_formula, sumIdxSq_formula]
    ring
  have hn' : (2 : ℝ) ≤ n := by exact_mod_cast hn
  have h2 : (0 : ℝ) < (n : ℝ) - 1 := by linarith
  have h3 : (0 : ℝ) < (n : ℝ) + 1 := by linarith
  have h4 : (0 : ℝ) < (n : ℝ) ^ 2 := by nlinarith
  rw [hD]
  exact div_pos (mul_pos (mul_pos h4 h2) h3) (by norm_num)

/-- On exactly linear data `ipp i = p + i * d` the least-squares slope
is exactly `d` (componentwise), for any `n ≥ 2`. -/
theorem slopeLS_linear (n : ℕ) (hn : 2 ≤ n) (ipp : ℕ → Fin 3 → ℝ)
    (p d : Fin 3 → ℝ) (hlin : ∀ i, i < n → ∀ j, ipp i j = p j + i * d j)
    (j : Fin 3) : slopeLS n ipp j = d j := by
  have hsum1 : (∑ i in Finset.range n, ipp i j) = n * p j + sumIdx n * d j := by
    calc ∑ i in Finset.range n, ipp i j
        = ∑ i in Finset.range n, (p j + i * d j) :=
          Finset.sum_congr rfl fun i hi => hlin i (Finset.mem_range.mp hi) j
      _ = (∑ _i in Finset.range n, p j) + ∑ i in Finset.range n, (i : ℝ) * d j :=
          Finset.sum_add_distrib
      _ = n * p j + sumIdx n * d j := by
          rw [Finset.sum_const, Finset.card_range, nsmul_eq_mul, sumIdx, Finset.sum_mul]
  have hsum2 : (∑ i in Finset.range n, (i : ℝ) * ipp i j) =
      sumIdx n * p j + sumIdxSq n * d j := by
    calc ∑ i in Finset.range n, (i : ℝ) * ipp i j
        = ∑ i in Finset.range n, ((i : ℝ) * p j + (i : ℝ) ^ 2 * d j) :=
          Finset.sum_congr rfl fun i hi => by
            rw [hlin i (Finset.mem_range.mp hi) j]
            ring
      _ = (∑ i in Finset.range n, (i : ℝ) * p j) +
            ∑ i in Finset.range n, (i : ℝ) ^ 2 * d j :=
          Finset.sum_add_distrib
      _ = sumIdx n * p j + sumIdxSq n * d j := by
          rw [sumIdx, sumIdxSq, Finset.sum_mul, Finset.sum_mul]
  rw [slopeLS, hsum1, hsum2, div_eq_iff (ne_of_gt (lstsqDen_pos n hn)), lstsqDen]
  ring

/-- C1 (amended): for a perfectly regular series (`ipp i = p + i*d`,
identical orientations being irrelevant to the spacing), the computed
slice spacing `pixdim[3]` is within `1e-6` of the true per-slice
displacement norm, PROVIDED no component of `d` lies strictly between 0
and `1e-6` in magnitude — such components are snapped to zero and can
move the norm by up to `sqrt(3)*1e-6 > 1e-6` (see the counterexample).
Under the proviso the slope is recovered exactly and the only error is
the rounding to 7 decimals, at most `0.5e-7`. -/
theorem create_affine_regular_spacing (n : ℕ) (ipp : ℕ → Fin 3 → ℝ)
    (iop : ℕ → Fin 6 → ℝ) (ps : ℕ → Fin 2 → ℝ) (p d : Fin 3 → ℝ)
    (hn : 2 ≤ n)
    (hlin : ∀ i, i < n → ∀ j, ipp i j = p j + i * d j)
    (hd : ∀ j, d j = 0 ∨ 1e-6 ≤ |d j|) :
    vecOf n ipp = d ∧
    |(create_affine n ipp iop ps).pixdim 3 - norm3 d| ≤ 1e-6 := by
  have hvec : vecOf n ipp = d := by
    funext j
    rw [vecOf, slopeLS_linear n hn ipp p d hlin j]
    rcases hd j with h | h
    · rw [h]
      unfold snap
      rw [if_pos]
      norm_num
    · unfold snap
      rw [if_neg (not_lt.mpr h)]
  refine ⟨hvec, ?_⟩
  rw [show (create_affine n ipp iop ps).pixdim 3 =
      round7 (norm3 (vecOf n ipp)) from rfl, hvec, round7]
  have h2 : (round (norm3 d * 10 ^ 7) : ℝ) / 10 ^ 7 - norm3 d =
      ((round (norm3 d * 10 ^ 7) : ℝ) - norm3 d * 10 ^ 7) / 10 ^ 7 := by
    ring
  rw [h2, abs_div, abs_of_pos (show (0 : ℝ) < 10 ^ 7 by norm_num),
    div_le_iff (show (0 : ℝ) < 10 ^ 7 by norm_num)]
  have h3 : |(round (norm3 d * 10 ^ 7) : ℝ) - norm3 d * 10 ^ 7| ≤ 1 / 2 := by
    rw [abs_sub_comm]
    exact abs_sub_round _
  have h4 : (1e-6 : ℝ) * 10 ^ 7 = 10 := by norm_num
  linarith

theorem create_affine_regular_spacing_witness :
    vecOf 2 ippW = ![0, 0, 2] ∧
    |(create_affine 2 ippW iopW psW).pixdim 3 - norm3 ![0, 0, 2]| ≤ 1e-6 :=
  create_affine_regular_spacing 2 ippW iopW psW ![0, 0, 0] ![0, 0, 2]
    (le_refl 2)
    (by
      intro i hi j
      interval_cases i <;> fin_cases j <;> norm_num [ippW])
    (by
      intro j
      fin_cases j <;> norm_num)

/-- A regular series whose per-slice displacement is `0.9e-6` in each
component: below the snap threshold componentwise, but of norm
`0.9e-6 * sqrt 3 > 1e-6`. -/
noncomputable def ipp9 : ℕ → Fin 3 → ℝ := fun i _ => 9 / 10000000 * i

/-- C1 counterexample: this perfectly regular series (identical
position deltas, identical orientations) has true displacement norm
`sqrt(2.43e-12) > 1e-6`, but the snap zeroes the slope entirely and the
computed `pixdim[3]` is 0 — off by more than the claimed `1e-6`. -/
theorem create_affine_regular_spacing_counterexample :
    (∀ i, i < 2 → ∀ j : Fin 3, ipp9 i j = 0 + i * (9 / 10000000)) ∧
    ¬ (|(create_affine 2 ipp9 iopW psW).pixdim 3 -
        norm3 (fun _ => (9 : ℝ) / 10000000)| ≤ 1e-6) := by
  constructor
  · intro i hi j
    simp only [ipp9]
    ring
  · have hvec : vecOf 2 ipp9 = fun _ => (0 : ℝ) := by
      funext j
      rw [vecOf, slopeLS_linear 2 (le_refl 2) ipp9 (fun _ => 0)
        (fun _ => 9 / 10000000) (by
          intro i hi j'
          simp only [ipp9]
          ring) j]
      show snap (9 / 10000000) = 0
      unfold snap
      rw [if_pos (by
        rw [abs_of_nonneg (by norm_num : (0 : ℝ) ≤ 9 / 10000000)]
        norm_num)]
    have hz : (create_affine 2 ipp9 iopW psW).pixdim 3 = 0 := by
      rw [show (create_affine 2 ipp9 iopW psW).pixdim 3 =
          round7 (norm3 (vecOf 2 ipp9)) from rfl, hvec]
      have hsum : (∑ j : Fin 3, ((fun _ => (0 : ℝ)) j) ^ 2) = 0 := by
        rw [Fin.sum_univ_three]
        norm_num
      rw [norm3, hsum, Real.sqrt_zero, round7, zero_mul, round_zero]
      norm_num
    have hA : norm3 (fun _ => (9 : ℝ) / 10000000) =
        Real.sqrt (3 * (9 / 10000000) ^ 2) := by
      have hsum : (∑ j : Fin 3, ((fun _ => (9 : ℝ) / 10000000) j) ^ 2) =
          3 * (9 / 10000000) ^ 2 := by
        rw [Fin.sum_univ_three]
        norm_num
      rw [norm3, hsum]
    rw [hz, hA, zero_sub, abs_neg, abs_of_nonneg (Real.sqrt_nonneg _), not_le]
    exact (Real.lt_sqrt (by norm_num)).mpr (by norm_num)

noncomputable section

/-- The three caller-owned metadata arrays, as mutable state visible to
`create_affine`. -/
structure CAState where
  ipp : ℕ → Fin 3 → ℝ
  iop : ℕ → Fin 6 → ℝ
  ps : ℕ → Fin 2 → ℝ

/-- Line 57: `x, r, rank, s = np.linalg.lstsq(A, ipp)` — `x` is a fresh
2x3 array (row 0 slope, row 1 intercept). -/
def runX (n : ℕ) (st : CAState) : Fin 2 → Fin 3 → ℝ := fun r j =>
  if r = 0 then slopeLS n st.ipp j else interceptLS n st.ipp j

/-- Line 59: `x[np.abs(x) < 1e-6] = 0.0`, in place on the fresh `x`. -/
def runX1 (n : ℕ) (st : CAState) : Fin 2 → Fin 3 → ℝ := fun r j => snap (runX n st r j)

/-- Line 73: `iop_average = np.mean(iop, axis=0)` — a fresh 6-vector. -/
def runIopA0 (n : ℕ) (st : CAState) : Fin 6 → ℝ := fun j => iopMean n st.iop j

/-- Lines 74-75: `u = iop_average[0:3]` is a VIEW into `iop_average`,
so `u /= sqrt(sum(square(u)))` writes slots 0-2 of `iop_average` —
not the caller's `iop`. -/
def runIopA1 (n : ℕ) (st : CAState) : Fin 6 → ℝ := fun j =>
  if (j : ℕ) < 3 then
    runIopA0 n st j /
      Real.sqrt (runIopA0 n st 0 ^ 2 + runIopA0 n st 1 ^ 2 + runIopA0 n st 2 ^ 2)
  else runIopA0 n st j

/-- Lines 76-77: likewise `v = iop_average[3:6]` is normalized through
the view, writing slots 3-5. -/
def runIopA2 (n : ℕ) (st : CAState) : Fin 6 → ℝ := fun j =>
  if 3 ≤ (j : ℕ) then
    runIopA1 n st j /
      Real.sqrt (runIopA1 n st 3 ^ 2 + runIopA1 n st 4 ^ 2 + runIopA1 n st 5 ^ 2)
  else runIopA1 n st j

/-- Lines 80-81: the snaps `u[abs(u) < 1e-6] = 0`, `v[...] = 0`,
again through the views into `iop_average`. -/
def runIopA3 (n : ℕ) (st : CAState) : Fin 6 → ℝ := fun j => snap (runIopA2 n st j)

def runU (n : ℕ) (st : CAState) : Fin 3 → ℝ := fun j =>
  runIopA3 n st (Fin.castLE (by norm_num) j)

def runV (n : ℕ) (st : CAState) : Fin 3 → ℝ := fun j => runIopA3 n st (j.addNat 3)

/-- Lines 84-88, reading the final values of the local arrays. -/
def runMat (n : ℕ) (st : CAState) : Fin 4 → Fin 4 → ℝ := fun r c =>
  if hr : (r : ℕ) < 3 then
    if c = 0 then runU n st ⟨r, hr⟩ * st.ps 0 0
    else if c = 1 then runV n st ⟨r, hr⟩ * st.ps 0 1
    else if c = 2 then runX1 n st 0 ⟨r, hr⟩
    else runX1 n st 1 ⟨r, hr⟩
  else if c = 3 then 1 else 0

/-- Lines 91-97. -/
def runPixdim (n : ℕ) (st : CAState) : Fin 4 → ℝ :=
  ![Real.sign (dot3 (runX1 n st 0) (crossOf (runU n st) (runV n st))),
    st.ps 0 0, st.ps 0 1, round7 (norm3 (runX1 n st 0))]

/-- Statement-by-statement trace of `create_affine` over explicit array
state: every assignment of the source targets a fresh local array
(`x`, `spacing`, `iop_average` and its views `u`, `v`, `mat`,
`pixdim`), so the input arrays flow through to the final state
untouched. -/
def create_affine_run (n : ℕ) (st : CAState) :
    CAState × ((Fin 4 → Fin 4 → ℝ) × (Fin 4 → ℝ)) :=
  (⟨st.ipp, st.iop, st.ps⟩, (runMat n st, runPixdim n st))

end

theorem runX1_zero (n : ℕ) (st : CAState) : runX1 n st 0 = vecOf n st.ipp := rfl

theorem runX1_one (n : ℕ) (st : CAState) : runX1 n st 1 = posOf n st.ipp := rfl

theorem runU_eq (n : ℕ) (st : CAState) : runU n st = uOf n st.iop := by
  funext j
  have hlt : ((Fin.castLE (by norm_num : 3 ≤ 6) j : Fin 6) : ℕ) < 3 := j.isLt
  show snap (runIopA2 n st (Fin.castLE (by norm_num) j)) = snap (unitize (uRaw n st.iop) j)
  congr 1
  rw [runIopA2, if_neg (by omega), runIopA1, if_pos hlt]
  congr 1
  rw [norm3, Fin.sum_univ_three]
  rfl

theorem runV_eq (n : ℕ) (st : CAState) : runV n st = vOf n st.iop := by
  funext j
  have hge : 3 ≤ ((j.addNat 3 : Fin 6) : ℕ) := by
    show 3 ≤ (j : ℕ) + 3
    omega
  show snap (runIopA2 n st (j.addNat 3)) = snap (unitize (vRaw n st.iop) j)
  congr 1
  rw [runIopA2, if_pos hge]
  have h3 : runIopA1 n st 3 = runIopA0 n st 3 := by
    rw [runIopA1, if_neg (by decide)]
  have h4 : runIopA1 n st 4 = runIopA0 n st 4 := by
    rw [runIopA1, if_neg (by decide)]
  have h5 : runIopA1 n st 5 = runIopA0 n st 5 := by
    rw [runIopA1, if_neg (by decide)]
  have hj : runIopA1 n st (j.addNat 3) = runIopA0 n st (j.addNat 3) := by
    rw [runIopA1, if_neg (show ¬ ((j.addNat 3 : Fin 6) : ℕ) < 3 by
      show ¬ (j : ℕ) + 3 < 3
      omega)]
  rw [h3, h4, h5, hj]
  congr 1
  rw [norm3, Fin.sum_univ_three]
  rfl

/-- C10: the trace leaves the input arrays exactly as they were — the
final state equals the initial state — and computes the same affine and
pixdim as the functional embedding; in particular the in-place
normalization acted on the averaged copy `iop_average`, not on the
caller's `iop`. -/
theorem create_affine_run_frame (n : ℕ) (st : CAState) :
    (create_affine_run n st).1 = st ∧
    (create_affine_run n st).2.1 = (create_affine n st.ipp st.iop st.ps).mat ∧
    (create_affine_run n st).2.2 = (create_affine n st.ipp st.iop st.ps).pixdim := by
  refine ⟨rfl, ?_, ?_⟩
  · show runMat n st = matOf n st.ipp st.iop st.ps
    funext r c
    unfold runMat matOf
    by_cases hr : (r : ℕ) < 3
    · rw [dif_pos hr, dif_pos hr, runU_eq, runV_eq, runX1_zero, runX1_one]
    · rw [dif_neg hr, dif_neg hr]
  · show runPixdim n st = pixdimOf n st.ipp st.iop st.ps
    unfold runPixdim pixdimOf
    rw [runU_eq, runV_eq, runX1_zero]
    rfl
